import Mathlib

/-!
Shallow embedding of the core of the `zen-fs/dom` repository:

* the File System Access ponyfill (`Sink`, `FileHandle`, `DirectoryHandle`)
  from `src/unnamed/part_000`;
* the path resolver `WebAccessFS.getHandle` from `src/unnamed/part_008`;
* the path-based adapter operations (`read`, `unlink`, `rmdir`, `readdir`,
  `get`) from `src/src/access.ts` (first revision in the file).

Byte sequences are modelled as `List Nat`, JS `Map`s as association lists
preserving insertion order, and thrown exceptions as explicit error values.
Operations that mutate object state before throwing return both the error
and the state, mirroring that a JS `throw` leaves prior field assignments
in place.
-/

namespace ZenDom

/-- DOM exception names / `TypeError`s thrown by the ponyfill
(`src/unnamed/part_000`). -/
inductive JsErr where
  /-- `TypeError` (invalid name) -/
  | typeError
  /-- `DOMException` with name `NotFoundError` -/
  | notFoundErr
  /-- `DOMException` with name `TypeMismatchError` -/
  | typeMismatchErr
  /-- `DOMException` with name `InvalidModificationError` -/
  | invalidModificationErr
  /-- `DOMException` with name `SyntaxError` -/
  | syntaxErr
deriving DecidableEq, Repr

/-- Error codes of the VFS error taxonomy used by `src/src/access.ts` and
`src/unnamed/part_008` (`ErrnoError.With` / `ApiError.With`). -/
inductive Errno where
  | ENOENT
  | ENOTDIR
  | EISDIR
  | ENODATA
  | EBUSY
  | ENOTEMPTY
  | EINVAL
  | EACCES
  /-- errno `EIO` -/
  | eioError
  /-- JS `RangeError` escaping `new Uint8Array(...)` / `TypedArray.set` -/
  | ERANGE
deriving DecidableEq, Repr

/-- A JS number as observed by `Number.isInteger(x) && x >= 0` style checks:
either an integer or anything else (fractional number, `NaN`, `Infinity`,
`undefined`, ...). -/
inductive JSNum where
  | int (n : Int)
  | other
deriving DecidableEq, Repr

/-! ## Write Sink (`class Sink`, `src/unnamed/part_000` lines 11-79)

The sink owns a working copy `file` of the target file's bytes and a cursor
`position`. The owning `FileHandle`'s content (`handle.file`, which the
`remove` path of newer revisions can set to `undefined`) is carried in the
same state record so that frame properties are provable; the source only
ever reads it inside `write`/`close` and assigns it in `close`. -/

/-- State of one open write session plus the content slot of the owning
`FileHandle`. `handleFile = none` models a deleted handle
(`!this.handle.file`). -/
structure Session where
  handleFile : Option (List Nat)
  file : List Nat
  position : Nat
deriving DecidableEq, Repr

/-- Chunks accepted by `Sink.write`. `writeCmd` is the
`{ type: 'write', position?, data? }` form (positions are modelled as
integers); `data` is a plain blob/buffer chunk. -/
inductive Chunk where
  | seek (position : JSNum)
  | truncate (size : JSNum)
  | writeCmd (position : Option Int) (data : Option (List Nat))
  | data (bytes : List Nat)
deriving DecidableEq, Repr

/-- The head/padding/payload/tail splice of `Sink.write`
(`src/unnamed/part_000` lines 61-72). Natural subtraction performs the
`if (padding < 0) padding = 0` clamp. -/
def splice (s : Session) (payload : List Nat) : Session :=
  let head := s.file.take s.position
  let tail := s.file.drop (s.position + payload.length)
  let padding := s.position - head.length
  { s with
    file := head ++ List.replicate padding 0 ++ payload ++ tail
    position := s.position + payload.length }

/-- `Sink.write` (`src/unnamed/part_000` lines 22-73). Returns the error
thrown (if any) together with the session state after the call; field
assignments made before a throw are kept, as in JS. -/
def sinkWrite (s : Session) (c : Chunk) : Option JsErr × Session :=
  if s.handleFile = none then (some .notFoundErr, s) else
  match c with
  | .seek pos =>
    match pos with
    | .int n => if n < 0 then (some .syntaxErr, s) else (none, { s with position := n.toNat })
    | .other => (some .syntaxErr, s)
  | .truncate size =>
    match size with
    | .int n =>
      if n < 0 then (some .syntaxErr, s) else
      let m := n.toNat
      let f :=
        if m < s.file.length then s.file.take m
        else if m > s.file.length then s.file ++ List.replicate (m - s.file.length) 0
        else s.file
      (none, { s with file := f, position := if s.position > f.length then f.length else s.position })
    | .other => (some .syntaxErr, s)
  | .writeCmd pos data =>
    let s1 :=
      match pos with
      | some p =>
        if 0 ≤ p then
          let pn := p.toNat
          { s with
            position := pn
            file := if s.file.length < pn then s.file ++ List.replicate (pn - s.file.length) 0 else s.file }
        else s
      | none => s
    match data with
    | none => (some .syntaxErr, s1)
    | some payload => (none, splice s1 payload)
  | .data payload => (none, splice s payload)

/-- `Sink.close` (`src/unnamed/part_000` lines 75-78): commit the working
buffer to the owning handle, or fail `NotFoundError` if the handle's file
slot was cleared. -/
def sinkClose (s : Session) : Option JsErr × Session :=
  if s.handleFile = none then (some .notFoundErr, s)
  else (none, { s with handleFile := some s.file })

/-- `new Sink(handle, { keepExistingData })` (`src/unnamed/part_000`
lines 15-20): snapshot the handle's content, or start empty. -/
def sinkOpen (content : List Nat) (keepExistingData : Bool) : Session :=
  { handleFile := some content
    file := if keepExistingData then content else []
    position := 0 }

/-! ## Handle tree (`FileHandle` / `DirectoryHandle`, `src/unnamed/part_000`)

A handle is a file with byte content or a directory with an
insertion-ordered name → handle map (`_data`). In `part_000` the
`_parent` back-reference is declared but never assigned (`_get` does not
set it), so `DirectoryHandle.remove`'s `this._parent?._data.delete(...)`
never fires; and `FileHandle.remove` has an empty body. -/

/-- A file-system-access handle: the `kind` discriminant with its payload. -/
inductive FsTree where
  | file (content : List Nat)
  | dir (children : List (String × FsTree))

/-- `handle.kind == 'directory'` -/
def FsTree.isDir : FsTree → Bool
  | .file _ => false
  | .dir _ => true

/-- Requested handle kind (`FileSystemHandleKind`). -/
inductive HKind where
  | file
  | dir
deriving DecidableEq, Repr

/-- `is(handle, kind)` (`src/unnamed/part_000` lines 141-143). -/
def isKind : FsTree → HKind → Bool
  | .file _, .file => true
  | .dir _, .dir => true
  | _, _ => false

/-- `Map.get` on a children map. -/
def aget : List (String × FsTree) → String → Option FsTree
  | [], _ => none
  | (k, v) :: t, name => if k = name then some v else aget t name

/-- `Map.set` on a children map: replace in place, else append in
insertion order. -/
def aset : List (String × FsTree) → String → FsTree → List (String × FsTree)
  | [], name, h => [(name, h)]
  | (k, v) :: t, name, h => if k = name then (name, h) :: t else (k, v) :: aset t name h

/-- The empty handle `_get` creates: `new FileHandle(name, new File([], name))`
or `new DirectoryHandle(name)`. -/
def emptyHandle : HKind → FsTree
  | .file => .file []
  | .dir => .dir []

/-- `DirectoryHandle._get(kind, name, options)` (`src/unnamed/part_000`
lines 216-232), acting on the directory's children map. Returns the
resulting handle and the (possibly extended) children map. -/
def dirGet (kind : HKind) (children : List (String × FsTree)) (name : String)
    (create : Bool) : Except JsErr (FsTree × List (String × FsTree)) :=
  if name = "" then .error .typeError
  else if name = "." ∨ name = ".." ∨ name.data.contains '/' then .error .typeError
  else
    match aget children name with
    | some entry =>
      if ¬ isKind entry kind then .error .typeMismatchErr
      else .ok (entry, children)
    | none =>
      if ¬ create then .error .notFoundErr
      else .ok (emptyHandle kind, aset children name (emptyHandle kind))

/-- `Handle.remove(options)` as implemented in `src/unnamed/part_000`:
`FileHandle.remove` (lines 196-197) has an empty body;
`DirectoryHandle.remove` (lines 272-281) throws
`InvalidModificationError` for a non-empty directory without the
`recursive` flag, otherwise removes every child recursively and clears
its own `_data`; the final `this._parent?._data.delete(this.name)` is a
no-op because `_parent` is never assigned in this revision. Returns the
error (if any) and the handle's state after the call. -/
def handleRemove (h : FsTree) (recursive : Bool) : Option JsErr × FsTree :=
  match h with
  | .file c => (none, .file c)
  | .dir children =>
    if ¬ children.isEmpty ∧ ¬ recursive then (some .invalidModificationErr, .dir children)
    else (none, .dir [])

/-- `DirectoryHandle.removeEntry(name, options)` (`src/unnamed/part_000`
lines 242-248), acting on the children map. The inner `entry.remove(options)`
is not awaited, so an error it raises is a dropped promise rejection: the
entry's state changes are kept (the map still references the same mutated
object) and `removeEntry` itself reports no failure. -/
def removeEntry (children : List (String × FsTree)) (name : String)
    (recursive : Bool) : Option JsErr × List (String × FsTree) :=
  if name = "" then (some .typeError, children)
  else if name = "." ∨ name = ".." ∨ name.data.contains '/' then (some .typeError, children)
  else
    match aget children name with
    | none => (some .notFoundErr, children)
    | some entry => (none, aset children name (handleRemove entry recursive).2)

/-! ## Path resolver (`WebAccessFS.getHandle`, `src/unnamed/part_008` lines 182-217)

Paths are slash-separated; `path.split('/').slice(1)` yields the segment
list, so a path is modelled as `List String` with the root as `[]` and
`join(walked, part)` as appending one segment. The `_handles` cache maps
paths to handles; `Map.set` overwrites, which the association list models
by shadowing (the most recent binding is found first). -/

/-- A path after the root, as its list of segments. -/
abbrev FsPath := List String

/-- The `_handles` path → handle cache. -/
abbrev HCache := List (FsPath × FsTree)

/-- `_handles.get(path)` -/
def cacheGet : HCache → FsPath → Option FsTree
  | [], _ => none
  | (k, v) :: t, p => if k = p then some v else cacheGet t p

/-- `_handles.set(path, handle)`: the new binding shadows any old one. -/
def cacheSet (c : HCache) (p : FsPath) (h : FsTree) : HCache :=
  (p, h) :: c

/-- `convertException` (`src/src/utils.ts`) restricted to the exceptions the
ponyfill raises: `NotFoundError` → `ENOENT`, `TypeMismatchError` and
`SyntaxError` → `EINVAL`, `InvalidModificationError` → `EACCES`, plain
`TypeError` → `EIO`. -/
def convertDomErr : JsErr → Errno
  | .notFoundErr => .ENOENT
  | .typeMismatchErr => .EINVAL
  | .syntaxErr => .EINVAL
  | .invalidModificationErr => .EACCES
  | .typeError => .eioError

/-- The `for (const part of path.split('/').slice(1))` loop of
`WebAccessFS.getHandle` (`src/unnamed/part_008` lines 187-216). Child
lookups go through the ponyfill's `_get` with `create` unset
(`handle.getDirectoryHandle(part)` / `handle.getFileHandle(part)`).
Returns the result (the handle, or `none` when the final
`this._handles.get(path)!` finds nothing) together with the cache as
mutated so far; a thrown error also reports the current cache, since the
`set` calls made before the throw persist in JS. -/
def resolveLoop (cache : HCache) (walked : FsPath) (parts : List String)
    (target : FsPath) : Except (Errno × HCache) (Option FsTree × HCache) :=
  match parts with
  | [] => .ok (cacheGet cache target, cache)
  | part :: rest =>
    match cacheGet cache walked with
    | none => .error (.ENOENT, cache)
    | some h =>
      match h with
      | .file _ => .error (.ENOTDIR, cache)
      | .dir children =>
        let walked1 := walked ++ [part]
        match dirGet .dir children part false with
        | .ok (child, _) => resolveLoop (cacheSet cache walked1 child) walked1 rest target
        | .error .typeMismatchErr =>
          match dirGet .file children part false with
          | .ok (f, _) => .ok (some f, cache)
          | .error e => .error (convertDomErr e, cache)
        | .error .typeError => .error (.ENOENT, cache)
        | .error e => .error (convertDomErr e, cache)

/-- `WebAccessFS.getHandle(path)` (`src/unnamed/part_008` lines 182-217):
return the cached handle on a hit, otherwise walk from the root. -/
def getHandle (cache : HCache) (path : FsPath) :
    Except (Errno × HCache) (Option FsTree × HCache) :=
  match cacheGet cache path with
  | some h => .ok (some h, cache)
  | none => resolveLoop cache [] path path

/-! Specification-side functions for the resolver (these follow the words
of the spec and of claim C7, to be compared with `getHandle`). -/

/-- Pure walk of the handle tree along a segment list, describing what one
`getHandle` cache-miss walk computes: a missing or invalidly named segment
fails `ENOENT`; a child that is a file is returned immediately, whatever
segments remain; a starting handle that is a file with segments left
fails `ENOTDIR`. -/
def walkSpec : FsTree → List String → Except Errno FsTree
  | t, [] => .ok t
  | .file _, _ :: _ => .error .ENOTDIR
  | .dir children, part :: rest =>
    if part = "" ∨ part = "." ∨ part = ".." ∨ part.data.contains '/' then .error .ENOENT
    else
      match aget children part with
      | none => .error .ENOENT
      | some (.file c) => .ok (.file c)
      | some (.dir children1) => walkSpec (.dir children1) rest

/-- The cache entries a cache-miss walk adds, in order: each successfully
visited directory handle, keyed by its full path. The walk stops adding
entries at the first failure or file child. -/
def walkUpdates : FsTree → FsPath → List String → List (FsPath × FsTree)
  | _, _, [] => []
  | .file _, _, _ :: _ => []
  | .dir children, walked, part :: rest =>
    if part = "" ∨ part = "." ∨ part = ".." ∨ part.data.contains '/' then []
    else
      match aget children part with
      | none => []
      | some (.file _) => []
      | some (.dir children1) =>
        (walked ++ [part], .dir children1) :: walkUpdates (.dir children1) (walked ++ [part]) rest

/-- Apply a list of cache updates in order. -/
def applyUpdates (c : HCache) : List (FsPath × FsTree) → HCache
  | [] => c
  | (p, h) :: rest => applyUpdates (cacheSet c p h) rest

/-- The subtree of a handle tree at a path, used to state that every cache
entry the walk adds maps a path to the handle actually at that path. -/
def treeAt : FsTree → FsPath → Option FsTree
  | t, [] => some t
  | .file _, _ :: _ => none
  | .dir children, part :: rest =>
    match aget children part with
    | none => none
    | some child => treeAt child rest

/-! ## VFS operation adapter (`WebAccessFS`, `src/src/access.ts` lines 33-296)

This revision resolves handles with a pure cache lookup (`get`, lines
284-295) and keeps a metadata index. Of each `Inode` only the
file/directory discriminant of `mode` matters to the modelled operations,
so an index entry is modelled as that one `Bool`. `Index.directoryEntries`
comes from the external `@zenfs/core` library; it is modelled from its
documented behaviour (spec section 4.4): the entries of an indexed
directory are the indexed paths whose parent is that path. -/

/-- Metadata index: path → is-directory bit of the inode's `mode`. -/
abbrev WIndex := List (FsPath × Bool)

/-- `index.has(path)` / `index.get(path)` -/
def idxGet : WIndex → FsPath → Option Bool
  | [], _ => none
  | (k, v) :: t, p => if k = p then some v else idxGet t p

/-- `index.delete(path)` -/
def idxDel : WIndex → FsPath → WIndex
  | [], _ => []
  | (k, v) :: t, p => if k = p then idxDel t p else (k, v) :: idxDel t p

/-- `index.directoryEntries(path)` of the external `@zenfs/core` `Index`,
modelled from spec section 4.4: for an indexed directory, the names of
the indexed paths directly below it; otherwise no result. -/
def dirEntries (idx : WIndex) (p : FsPath) : Option (List String) :=
  match idxGet idx p with
  | some true => some (idx.filterMap fun e => if e.1.dropLast = p then e.1.getLast? else none)
  | _ => none

/-- State of a `WebAccessFS` instance: the metadata index and the
`_handles` path → handle map. -/
structure WAFS where
  index : WIndex
  handles : HCache

/-- `WebAccessFS.get(kind, path, syscall)` (`src/src/access.ts` lines
284-295): pure `_handles` lookup, `ENODATA` when absent, kind check. -/
def waGet (handles : HCache) (kind : Option HKind) (path : FsPath) : Except Errno FsTree :=
  match cacheGet handles path with
  | none => .error .ENODATA
  | some h =>
    match kind with
    | some k =>
      if ¬ isKind h k then .error (if k = .dir then .ENOTDIR else .EISDIR)
      else .ok h
    | none => .ok h

/-- `WebAccessFS.read(path, buffer, offset, end)` (`src/src/access.ts`
lines 149-159). `new Uint8Array(data, offset, end - offset)` and
`buffer.set(view)` throw `RangeError` when the requested view does not
fit, modelled as `ERANGE`. `buffer.set(view)` writes the view at the
start of `buffer`, leaving the remaining bytes in place. -/
def waRead (handles : HCache) (path : FsPath) (buffer : List Nat)
    (offset endPos : Int) : Except Errno (List Nat) :=
  if endPos ≤ offset then .ok buffer else
  match waGet handles (some .file) path with
  | .error e => .error e
  | .ok (.dir _) => .error .EISDIR
  | .ok (.file content) =>
    if (content.length : Int) < endPos - offset then .error .ENODATA
    else if offset < 0 ∨ (content.length : Int) < endPos then .error .ERANGE
    else
      let view := (content.drop offset.toNat).take (endPos - offset).toNat
      if buffer.length < view.length then .error .ERANGE
      else .ok (view ++ buffer.drop view.length)

/-- `WebAccessFS.readdir(path)` (`src/src/access.ts` lines 267-282), in the
default configuration (`disableIndexOptimizations` false): served from the
metadata index. -/
def waReaddir (s : WAFS) (path : FsPath) : Except Errno (List String) :=
  if idxGet s.index path = none then .error .ENOENT
  else
    match dirEntries s.index path with
    | none => .error .ENOTDIR
    | some names => .ok names

/-- Shared removal tail of `unlink` and `rmdir`: resolve the parent
directory, `removeEntry(basename, { recursive: true })`, convert a raised
exception, then `index.delete(path)`. The in-place mutation of the parent
handle is reflected by rebinding its cache entry. -/
def waRemoveViaParent (s : WAFS) (path : FsPath) : Except Errno Unit × WAFS :=
  match waGet s.handles (some .dir) path.dropLast with
  | .error e => (.error e, s)
  | .ok (.file _) => (.error .ENOTDIR, s)
  | .ok (.dir children) =>
    match path.getLast? with
    | none => (.error .eioError, s)
    | some name =>
      match removeEntry children name true with
      | (some e, _) => (.error (convertDomErr e), s)
      | (none, children1) =>
        (.ok (),
          { index := idxDel s.index path
            handles := cacheSet s.handles path.dropLast (.dir children1) })

/-- `WebAccessFS.unlink(path)` (`src/src/access.ts` lines 142-147). -/
def waUnlink (s : WAFS) (path : FsPath) : Except Errno Unit × WAFS :=
  if path = [] then (.error .EBUSY, s)
  else waRemoveViaParent s path

/-- `WebAccessFS.rmdir(path)` (`src/src/access.ts` lines 248-254). -/
def waRmdir (s : WAFS) (path : FsPath) : Except Errno Unit × WAFS :=
  match waReaddir s path with
  | .error e => (.error e, s)
  | .ok entries =>
    if ¬ entries.isEmpty then (.error .ENOTEMPTY, s)
    else if path = [] then (.error .EBUSY, s)
    else waRemoveViaParent s path

/-! ## Theorems -/

/-- C1: for every write session with working content `C`, cursor `p` and
payload `X`, a successful write replaces the content with
`C[0:p] ++ zeros(max(0, p - len(C[0:p]))) ++ X ++ C[p+len(X):]` — one
zero-padded gap, no head or tail bytes duplicated or dropped — and leaves
the cursor at `p + len(X)`. -/
theorem sink_write_splices (s : Session) (f X : List Nat)
    (halive : s.handleFile = some f) :
    sinkWrite s (.data X) =
      (none,
        { s with
          file := s.file.take s.position
            ++ List.replicate (s.position - (s.file.take s.position).length) 0
            ++ X ++ s.file.drop (s.position + X.length)
          position := s.position + X.length }) := by
  simp [sinkWrite, splice, halive]

theorem sink_write_splices_witness :
    sinkWrite ⟨some [1, 2], [1, 2], 4⟩ (.data [9]) =
      (none, ⟨some [1, 2], [1, 2, 0, 0, 9], 5⟩) :=
  (sink_write_splices ⟨some [1, 2], [1, 2], 4⟩ [1, 2] [9] rfl).trans (by decide)

/-- C2: `seek`, `truncate` and `write` commands never change the owning
handle's content slot; only `close` commits, replacing the handle's
content with the session's working buffer in one step, and `close` fails
`NotFoundError` when the handle's content was deleted during the
session. -/
theorem sink_commit_only_on_close :
    (∀ (s : Session) (c : Chunk), (sinkWrite s c).2.handleFile = s.handleFile)
    ∧ (∀ s : Session, s.handleFile = none → sinkClose s = (some .notFoundErr, s))
    ∧ (∀ (s : Session) (f : List Nat), s.handleFile = some f →
        sinkClose s = (none, { s with handleFile := some s.file })) := by
  refine ⟨?_, ?_, ?_⟩
  · intro s c
    by_cases h : s.handleFile = none
    · simp [sinkWrite, h]
    · cases c with
      | seek pos =>
        cases pos with
        | int n => by_cases hn : n < 0 <;> simp [sinkWrite, h, hn]
        | other => simp [sinkWrite, h]
      | truncate size =>
        cases size with
        | int n => by_cases hn : n < 0 <;> simp [sinkWrite, h, hn]
        | other => simp [sinkWrite, h]
      | writeCmd pos data =>
        cases data <;> cases pos <;> simp [sinkWrite, splice, h] <;> split <;> simp
      | data payload => simp [sinkWrite, splice, h]
  · intro s h
    simp [sinkClose, h]
  · intro s f h
    simp [sinkClose, h]

theorem sink_commit_only_on_close_witness :
    (sinkWrite ⟨some [5], [], 0⟩ (.data [1])).2.handleFile = some [5]
    ∧ sinkClose ⟨none, [2], 0⟩ = (some .notFoundErr, ⟨none, [2], 0⟩)
    ∧ sinkClose ⟨some [5], [2], 0⟩ = (none, ⟨some [2], [2], 0⟩) :=
  ⟨sink_commit_only_on_close.1 ⟨some [5], [], 0⟩ (.data [1]),
   sink_commit_only_on_close.2.1 ⟨none, [2], 0⟩ rfl,
   (sink_commit_only_on_close.2.2 ⟨some [5], [2], 0⟩ [5] rfl).trans (by decide)⟩

/-- C3: on a live session, `seek(p)` fails `SyntaxError` (the invalid-
argument error) exactly when `p` is not a non-negative integer, leaves the
session unchanged on any failure, and on success sets the cursor to
exactly `p` — no clamping to the content length, so seeking past the end
of the file succeeds. -/
theorem sink_seek_exact (s : Session) (f : List Nat) (p : JSNum)
    (halive : s.handleFile = some f) :
    ((sinkWrite s (.seek p)).1 = some .syntaxErr ↔ ¬ ∃ n : Int, p = .int n ∧ 0 ≤ n)
    ∧ ((sinkWrite s (.seek p)).1 ≠ none → (sinkWrite s (.seek p)).2 = s)
    ∧ (∀ n : Int, p = .int n → 0 ≤ n →
        sinkWrite s (.seek p) = (none, { s with position := n.toNat })) := by
  refine ⟨?_, ?_, ?_⟩
  · cases p with
    | int n => by_cases hn : n < 0 <;> simp [sinkWrite, halive, hn]
    | other => simp [sinkWrite, halive]
  · cases p with
    | int n => by_cases hn : n < 0 <;> simp [sinkWrite, halive, hn]
    | other => simp [sinkWrite, halive]
  · intro n hp hn
    subst hp
    simp [sinkWrite, halive, Int.not_lt.mpr hn]

theorem sink_seek_exact_witness :
    (sinkWrite ⟨some [], [1], 0⟩ (.seek .other)).1 = some .syntaxErr
    ∧ sinkWrite ⟨some [], [1], 0⟩ (.seek (.int 7)) = (none, ⟨some [], [1], 7⟩) := by
  constructor
  · exact ((sink_seek_exact ⟨some [], [1], 0⟩ [] .other rfl).1).mpr
      (by rintro ⟨n, h, hh⟩; cases h)
  · exact ((sink_seek_exact ⟨some [], [1], 0⟩ [] (.int 7) rfl).2.2 7 rfl
      (by decide)).trans (by decide)

/-- C4: on a live session with content of length `L` and cursor `c`,
`truncate(size)` with a non-negative integer `size` succeeds; the new
content is the first `size` bytes when `size < L`, the content extended
with `size - L` zero bytes when `size > L`, and unchanged when
`size = L`; afterwards the cursor equals `min(c, size)`. -/
theorem sink_truncate_cases (s : Session) (f : List Nat) (n : Int)
    (halive : s.handleFile = some f) (hn : 0 ≤ n) :
    (sinkWrite s (.truncate (.int n))).1 = none
    ∧ (sinkWrite s (.truncate (.int n))).2.handleFile = s.handleFile
    ∧ (n.toNat < s.file.length →
        (sinkWrite s (.truncate (.int n))).2.file = s.file.take n.toNat)
    ∧ (s.file.length < n.toNat →
        (sinkWrite s (.truncate (.int n))).2.file
          = s.file ++ List.replicate (n.toNat - s.file.length) 0)
    ∧ (n.toNat = s.file.length → (sinkWrite s (.truncate (.int n))).2.file = s.file)
    ∧ (sinkWrite s (.truncate (.int n))).2.position = min s.position n.toNat := by
  have hnn : ¬ n < 0 := Int.not_lt.mpr hn
  refine ⟨by simp [sinkWrite, halive, hnn], by simp [sinkWrite, halive, hnn], ?_, ?_, ?_, ?_⟩
  · intro h
    simp [sinkWrite, halive, hnn, h]
  · intro h
    simp [sinkWrite, halive, hnn, Nat.lt_asymm h, h]
  · intro h
    simp [sinkWrite, halive, hnn, h]
  · simp only [sinkWrite, halive, hnn]
    by_cases h1 : n.toNat < s.file.length
    · simp [h1]
      split_ifs <;> omega
    · by_cases h2 : s.file.length < n.toNat
      · simp [h1, h2]
        split_ifs <;> omega
      · simp [h1, h2]
        split_ifs <;> omega

/-- Helper: both validation gates of the ponyfill (`_get` and
`removeEntry`) reject the empty string, `.`, `..` and any name containing
a separator with a `TypeError`. -/
theorem dirGet_invalid_name (kind : HKind) (children : List (String × FsTree))
    (name : String) (create : Bool)
    (h : name = "" ∨ name = "." ∨ name = ".." ∨ name.data.contains '/') :
    dirGet kind children name create = .error .typeError := by
  rcases h with h | h | h | h
  · simp [dirGet, h]
  · by_cases hne : name = "" <;> simp [dirGet, hne, h]
  · by_cases hne : name = "" <;> simp [dirGet, hne, h]
  · simp at h
    by_cases hne : name = "" <;> simp [dirGet, hne, h]

/-- Helper: `removeEntry` with an invalid name fails `TypeError` with the
children map untouched. -/
theorem removeEntry_invalid_name (children : List (String × FsTree)) (name : String)
    (recursive : Bool)
    (h : name = "" ∨ name = "." ∨ name = ".." ∨ name.data.contains '/') :
    removeEntry children name recursive = (some .typeError, children) := by
  rcases h with h | h | h | h
  · simp [removeEntry, h]
  · by_cases hne : name = "" <;> simp [removeEntry, hne, h]
  · by_cases hne : name = "" <;> simp [removeEntry, hne, h]
  · simp at h
    by_cases hne : name = "" <;> simp [removeEntry, hne, h]

/-- C5: `_get` behaves exactly as the case analysis over name validity,
presence, kind and the `create` flag: invalid names fail `TypeError`, an
existing child of the other kind fails `TypeMismatchError`, an existing
child of the matching kind is returned, an absent child fails
`NotFoundError` without `create`, and with `create` a new empty handle of
the requested kind is inserted and returned. -/
theorem dirGet_case_analysis (kind : HKind) (children : List (String × FsTree))
    (name : String) (create : Bool) :
    ((name = "" ∨ name = "." ∨ name = ".." ∨ name.data.contains '/') →
      dirGet kind children name create = .error .typeError)
    ∧ (∀ h, ¬ (name = "" ∨ name = "." ∨ name = ".." ∨ name.data.contains '/') →
        aget children name = some h → isKind h kind = false →
        dirGet kind children name create = .error .typeMismatchErr)
    ∧ (∀ h, ¬ (name = "" ∨ name = "." ∨ name = ".." ∨ name.data.contains '/') →
        aget children name = some h → isKind h kind = true →
        dirGet kind children name create = .ok (h, children))
    ∧ (¬ (name = "" ∨ name = "." ∨ name = ".." ∨ name.data.contains '/') →
        aget children name = none → create = false →
        dirGet kind children name create = .error .notFoundErr)
    ∧ (¬ (name = "" ∨ name = "." ∨ name = ".." ∨ name.data.contains '/') →
        aget children name = none → create = true →
        dirGet kind children name create
          = .ok (emptyHandle kind, aset children name (emptyHandle kind))) := by
  refine ⟨dirGet_invalid_name kind children name create, ?_, ?_, ?_, ?_⟩
  · intro h hv hl hk
    push_neg at hv
    obtain ⟨h1, h2, h3, h4⟩ := hv
    simp at h4
    simp [dirGet, h1, h2, h3, h4, hl, hk]
  · intro h hv hl hk
    push_neg at hv
    obtain ⟨h1, h2, h3, h4⟩ := hv
    simp at h4
    simp [dirGet, h1, h2, h3, h4, hl, hk]
  · intro hv hl hc
    push_neg at hv
    obtain ⟨h1, h2, h3, h4⟩ := hv
    simp at h4
    simp [dirGet, h1, h2, h3, h4, hl, hc]
  · intro hv hl hc
    push_neg at hv
    obtain ⟨h1, h2, h3, h4⟩ := hv
    simp at h4
    simp [dirGet, h1, h2, h3, h4, hl, hc]

theorem dirGet_case_analysis_witness :
    dirGet .file [] "a/b" true = .error .typeError
    ∧ dirGet .file [("d", .dir [])] "d" false = .error .typeMismatchErr
    ∧ dirGet .dir [("d", .dir [])] "d" false = .ok (.dir [], [("d", .dir [])])
    ∧ dirGet .file [] "x" false = .error .notFoundErr
    ∧ dirGet .file [] "x" true = .ok (.file [], [("x", .file [])]) := by
  obtain ⟨hinv, hmis, hhit, habs, hcre⟩ := dirGet_case_analysis .file ([] : List (String × FsTree)) "x" true
  refine ⟨?_, ?_, ?_, ?_, ?_⟩
  · exact (dirGet_case_analysis .file [] "a/b" true).1 (by decide)
  · exact (dirGet_case_analysis .file [("d", .dir [])] "d" false).2.1 (.dir [])
      (by decide) rfl rfl
  · exact (dirGet_case_analysis .dir [("d", .dir [])] "d" false).2.2.1 (.dir [])
      (by decide) rfl rfl
  · exact (dirGet_case_analysis .file [] "x" false).2.2.2.1 (by decide) rfl rfl
  · exact hcre (by decide) rfl rfl

/-- C6 (failing input): in `src/unnamed/part_000`, `removeEntry` on a
directory whose child `"a"` is a file reports success yet leaves `"a"` in
the children map: `FileHandle.remove` has an empty body and `_parent` is
never assigned, so nothing ever detaches the entry. -/
theorem removeEntry_keeps_file_child :
    removeEntry [("a", .file [])] "a" false = (none, [("a", .file [])])
    ∧ removeEntry [("d", .dir [("x", .file [])])] "d" true
        = (none, [("d", .dir [])]) := by
  constructor
  · simp [removeEntry, aget, aset, handleRemove]
  · simp [removeEntry, aget, aset, handleRemove]

/-- Helper: a freshly set cache entry is found again. -/
theorem cacheGet_set_self (c : HCache) (p : FsPath) (h : FsTree) :
    cacheGet (cacheSet c p h) p = some h := by
  simp [cacheGet, cacheSet]

/-- Helper: a cache-miss walk of `resolveLoop`, started at a cached handle
`t`, computes the pure tree walk `walkSpec t` and grows the cache by
exactly `walkUpdates t`. -/
theorem resolveLoop_walkSpec (parts : List String) :
    ∀ (cache : HCache) (walked : FsPath) (t : FsTree),
      cacheGet cache walked = some t →
      resolveLoop cache walked parts (walked ++ parts) =
        (match walkSpec t parts with
         | .error e => .error (e, applyUpdates cache (walkUpdates t walked parts))
         | .ok r => .ok (some r, applyUpdates cache (walkUpdates t walked parts))) := by
  induction parts with
  | nil =>
    intro cache walked t hc
    simp [resolveLoop, walkSpec, walkUpdates, applyUpdates, hc]
  | cons part rest ih =>
    intro cache walked t hc
    cases t with
    | file c =>
      simp [resolveLoop, walkSpec, walkUpdates, applyUpdates, hc]
    | dir children =>
      by_cases hval : part = "" ∨ part = "." ∨ part = ".." ∨ part.data.contains '/'
      · have hdg := dirGet_invalid_name .dir children part false hval
        have hval2 : part = "" ∨ part = "." ∨ part = ".." ∨ '/' ∈ part.data := by
          simpa using hval
        simp [resolveLoop, hc, hdg, walkSpec, walkUpdates, applyUpdates, hval2]
      · have hv := hval
        push_neg at hv
        obtain ⟨h1, h2, h3, h4⟩ := hv
        simp at h4
        cases hag : aget children part with
        | none =>
          have hdg : dirGet .dir children part false = .error .notFoundErr := by
            simp [dirGet, h1, h2, h3, h4, hag]
          simp [resolveLoop, hc, hdg, walkSpec, walkUpdates, applyUpdates,
            h1, h2, h3, h4, hag, convertDomErr]
        | some child =>
          cases child with
          | file fc =>
            have hdg : dirGet .dir children part false = .error .typeMismatchErr := by
              simp [dirGet, h1, h2, h3, h4, hag, isKind]
            have hdf : dirGet .file children part false = .ok (.file fc, children) := by
              simp [dirGet, h1, h2, h3, h4, hag, isKind]
            simp [resolveLoop, hc, hdg, hdf, walkSpec, walkUpdates, applyUpdates,
              h1, h2, h3, h4, hag]
          | dir ch1 =>
            have hdg : dirGet .dir children part false = .ok (.dir ch1, children) := by
              simp [dirGet, h1, h2, h3, h4, hag, isKind]
            have hstep := ih (cacheSet cache (walked ++ [part]) (.dir ch1))
              (walked ++ [part]) (.dir ch1)
              (cacheGet_set_self cache (walked ++ [part]) (.dir ch1))
            have hw : walked ++ part :: rest = (walked ++ [part]) ++ rest := by
              simp
            simp only [resolveLoop, hc, hdg, hw, hstep]
            simp [walkSpec, walkUpdates, applyUpdates, h1, h2, h3, h4, hag]

/-- Helper: every entry added by a walk maps a non-empty prefix of the
walked segments to the directory subtree actually at that prefix. -/
theorem walkUpdates_mem (parts : List String) :
    ∀ (t : FsTree) (walked q : FsPath) (h : FsTree),
      (q, h) ∈ walkUpdates t walked parts →
      ∃ r, q = walked ++ r ∧ r ≠ [] ∧ r <+: parts ∧ treeAt t r = some h ∧ h.isDir = true := by
  induction parts with
  | nil =>
    intro t walked q h hmem
    simp [walkUpdates] at hmem
  | cons part rest ih =>
    intro t walked q h hmem
    cases t with
    | file c => simp [walkUpdates] at hmem
    | dir children =>
      by_cases hval : part = "" ∨ part = "." ∨ part = ".." ∨ part.data.contains '/'
      · have hval2 : part = "" ∨ part = "." ∨ part = ".." ∨ '/' ∈ part.data := by
          simpa using hval
        simp [walkUpdates, hval2] at hmem
      · have hv := hval
        push_neg at hv
        obtain ⟨h1, h2, h3, h4⟩ := hv
        simp at h4
        cases hag : aget children part with
        | none => simp [walkUpdates, h1, h2, h3, h4, hag] at hmem
        | some child =>
          cases child with
          | file fc => simp [walkUpdates, h1, h2, h3, h4, hag] at hmem
          | dir ch1 =>
            simp only [walkUpdates, h1, h2, h3, h4, hag] at hmem
            rw [if_neg (by simp [h1, h2, h3, h4])] at hmem
            rcases List.mem_cons.mp hmem with heq | hrest
            · refine ⟨[part], ?_, by simp, ?_, ?_, ?_⟩
              · simpa using congrArg Prod.fst heq
              · exact ⟨rest, rfl⟩
              · have hh : h = .dir ch1 := congrArg Prod.snd heq
                simp [treeAt, hag, hh]
              · have hh : h = .dir ch1 := congrArg Prod.snd heq
                simp [hh, FsTree.isDir]
            · obtain ⟨r, hq, hr, hpre, hat, hd⟩ := ih (.dir ch1) (walked ++ [part]) q h hrest
              refine ⟨part :: r, by simp [hq], by simp, ?_, ?_, hd⟩
              · obtain ⟨u, hu⟩ := hpre
                exact ⟨u, by simp [← hu]⟩
              · simp [treeAt, hag, hat]

/-- C7 (amended): on a cache miss, `getHandle` walks the handle tree from
the root one segment at a time, caching each successfully visited
intermediate directory at its full path; it fails `ENOENT` when a segment
is missing or invalid, and when an intermediate segment resolves to a
non-directory the resolver returns that handle immediately (ignoring the
remaining segments) instead of failing `ENOTDIR`. -/
theorem getHandle_cache_miss_walk (cache : HCache) (root : List (String × FsTree))
    (path : FsPath)
    (hroot : cacheGet cache [] = some (.dir root))
    (hmiss : cacheGet cache path = none) :
    getHandle cache path =
      (match walkSpec (.dir root) path with
       | .error e => .error (e, applyUpdates cache (walkUpdates (.dir root) [] path))
       | .ok r => .ok (some r, applyUpdates cache (walkUpdates (.dir root) [] path)))
    ∧ (∀ q h, (q, h) ∈ walkUpdates (.dir root) [] path →
        q ≠ [] ∧ q <+: path ∧ treeAt (.dir root) q = some h ∧ h.isDir = true) := by
  constructor
  · have hwalk := resolveLoop_walkSpec path cache [] (.dir root) hroot
    simp only [List.nil_append] at hwalk
    simp [getHandle, hmiss, hwalk]
  · intro q h hmem
    obtain ⟨r, hq, hr, hpre, hat, hd⟩ := walkUpdates_mem path (.dir root) [] q h hmem
    simp only [List.nil_append] at hq
    subst hq
    exact ⟨hr, hpre, hat, hd⟩

theorem getHandle_cache_miss_walk_witness :
    getHandle [([], .dir [("a", .dir [("b", .file [3])])])] ["a", "b"]
      = .ok (some (.file [3]),
          [(["a"], .dir [("b", .file [3])]), ([], .dir [("a", .dir [("b", .file [3])])])])
    ∧ treeAt (.dir [("a", .dir [("b", .file [3])])]) ["a"] = some (.dir [("b", .file [3])]) := by
  obtain ⟨heq, hmem⟩ := getHandle_cache_miss_walk
    [([], .dir [("a", .dir [("b", .file [3])])])]
    [("a", .dir [("b", .file [3])])] ["a", "b"] rfl rfl
  constructor
  · refine heq.trans ?_
    simp [walkSpec, walkUpdates, applyUpdates, cacheSet, aget]
  · exact (hmem ["a"] (.dir [("b", .file [3])])
      (by simp [walkUpdates, aget])).2.2.1

/-- C7 (counterexample to the claim as stated): resolving the path `/a/b`
when `/a` holds a file and only the root is cached does not fail
`ENOTDIR` — `getHandle` succeeds, returning the file handle of `/a` and
leaving the cache unchanged. -/
theorem getHandle_intermediate_file_no_enotdir :
    getHandle [([], .dir [("a", .file [7])])] ["a", "b"]
      = .ok (some (.file [7]), [([], .dir [("a", .file [7])])]) := by
  simp [getHandle, cacheGet, resolveLoop, dirGet, aget, isKind]

theorem sink_truncate_cases_witness :
    (sinkWrite ⟨some [1, 2, 3], [1, 2, 3], 3⟩ (.truncate (.int 2))).2.file = [1, 2]
    ∧ (sinkWrite ⟨some [1, 2, 3], [1, 2, 3], 3⟩ (.truncate (.int 2))).2.position = 2 := by
  obtain ⟨_, _, hlt, _, _, hpos⟩ :=
    sink_truncate_cases ⟨some [1, 2, 3], [1, 2, 3], 3⟩ [1, 2, 3] 2 rfl (by decide)
  exact ⟨(hlt (by decide)).trans (by decide), hpos.trans (by decide)⟩

/-- C10: `removeEntry` applies the same name validation as `_get`: an
empty name, `.`, `..`, or a name containing `/` fails with the
invalid-name `TypeError` before the children map is consulted — for every
children map and options value, with the children left unchanged — and
`_get` rejects exactly the same names. -/
theorem removeEntry_name_validation (children : List (String × FsTree))
    (name : String) (recursive : Bool)
    (h : name = "" ∨ name = "." ∨ name = ".." ∨ name.data.contains '/') :
    removeEntry children name recursive = (some .typeError, children)
    ∧ ∀ (kind : HKind) (create : Bool),
        dirGet kind children name create = .error .typeError :=
  ⟨removeEntry_invalid_name children name recursive h,
   fun kind create => dirGet_invalid_name kind children name create h⟩

theorem removeEntry_name_validation_witness :
    removeEntry [("x", .file [1])] ".." true = (some .typeError, [("x", .file [1])])
    ∧ dirGet .dir [("x", .file [1])] ".." true = .error .typeError := by
  obtain ⟨h1, h2⟩ := removeEntry_name_validation [("x", .file [1])] ".." true
    (Or.inr (Or.inr (Or.inl rfl)))
  exact ⟨h1, h2 .dir true⟩

/-- C8: for a path holding a file with content of length `L`, `read` is a
no-op when `end ≤ offset`; otherwise it fails `ENODATA` exactly when
`L < end - offset`; and any successful non-trivial read copies exactly
the content bytes in `[offset, end)` to the front of the caller's buffer,
leaving the rest of the buffer in place. -/
theorem waRead_range (handles : HCache) (path : FsPath) (content buffer : List Nat)
    (offset endPos : Int)
    (hfile : cacheGet handles path = some (.file content)) :
    (endPos ≤ offset → waRead handles path buffer offset endPos = .ok buffer)
    ∧ (waRead handles path buffer offset endPos = .error .ENODATA ↔
        offset < endPos ∧ (content.length : Int) < endPos - offset)
    ∧ (∀ out, waRead handles path buffer offset endPos = .ok out → offset < endPos →
        out = (content.drop offset.toNat).take (endPos - offset).toNat
          ++ buffer.drop (endPos - offset).toNat) := by
  have hget : waGet handles (some .file) path = .ok (.file content) := by
    simp [waGet, hfile, isKind]
  refine ⟨?_, ?_, ?_⟩
  · intro h
    simp [waRead, h]
  · by_cases hle : endPos ≤ offset
    · simp [waRead, hle]
    · simp only [waRead, hget, if_neg hle]
      by_cases hdata : (content.length : Int) < endPos - offset
      · simp only [if_pos hdata]
        have hc : offset < endPos ∧ (content.length : Int) < endPos - offset := by omega
        simp [hc]
      · simp only [if_neg hdata]
        constructor
        · intro hcontr
          exfalso
          revert hcontr
          split
          · simp
          · split <;> simp
        · intro hc
          exact absurd hc.2 hdata
  · intro out hout hlt
    simp only [waRead, hget, if_neg (not_le.mpr hlt)] at hout
    split at hout
    · exact absurd hout (by simp)
    · split at hout
      · exact absurd hout (by simp)
      · split at hout
        · exact absurd hout (by simp)
        · have hlen : ((content.drop offset.toNat).take (endPos - offset).toNat).length
              = (endPos - offset).toNat := by
            simp only [List.length_take, List.length_drop]
            omega
          injection hout with h
          rw [← h, hlen]

theorem waRead_range_witness :
    waRead [(["f"], .file [10, 20, 30])] ["f"] [0, 0] 3 3 = .ok [0, 0]
    ∧ waRead [(["f"], .file [10, 20, 30])] ["f"] [0, 0] 0 5 = .error .ENODATA := by
  constructor
  · exact (waRead_range [(["f"], .file [10, 20, 30])] ["f"] [10, 20, 30] [0, 0] 3 3 rfl).1
      (by decide)
  · exact ((waRead_range [(["f"], .file [10, 20, 30])] ["f"] [10, 20, 30] [0, 0] 0 5
      rfl).2.1).mpr (by constructor <;> decide)

/-- C9: the root path can never be removed through the adapter:
`unlink('/')` fails `EBUSY` outright, and — whenever the index lists the
root as a directory (the adapter's standing invariant) — `rmdir('/')`
fails `ENOTEMPTY` when the root has entries and `EBUSY` otherwise; in
every case the handle map and metadata index are returned unchanged. -/
theorem root_guard (s : WAFS) (hroot : idxGet s.index [] = some true) :
    waUnlink s [] = (.error .EBUSY, s)
    ∧ (∃ names, waReaddir s [] = .ok names)
    ∧ (∀ names, waReaddir s [] = .ok names →
        waRmdir s [] = ((if names.isEmpty then .error .EBUSY else .error .ENOTEMPTY), s)) := by
  refine ⟨by simp [waUnlink],
    ⟨s.index.filterMap (fun e => if e.1.dropLast = [] then e.1.getLast? else none), ?_⟩, ?_⟩
  · simp [waReaddir, dirEntries, hroot]
  · intro names h
    by_cases he : names.isEmpty <;> simp [waRmdir, h, he]

theorem root_guard_witness :
    waUnlink ⟨[([], true), (["a"], false)], []⟩ [] =
      (.error .EBUSY, ⟨[([], true), (["a"], false)], []⟩)
    ∧ waRmdir ⟨[([], true), (["a"], false)], []⟩ [] =
      (.error .ENOTEMPTY, ⟨[([], true), (["a"], false)], []⟩)
    ∧ waRmdir ⟨[([], true)], []⟩ [] = (.error .EBUSY, ⟨[([], true)], []⟩) := by
  refine ⟨(root_guard ⟨[([], true), (["a"], false)], []⟩ rfl).1, ?_, ?_⟩
  · exact ((root_guard ⟨[([], true), (["a"], false)], []⟩ rfl).2.2 ["a"] rfl).trans (by rfl)
  · exact ((root_guard ⟨[([], true)], []⟩ rfl).2.2 [] rfl).trans (by rfl)

end ZenDom
